import Mathlib

/-!
Verification of the tdewolff/geo OSM package against its specification.

The Go source is shallowly embedded: 64-bit machine floats used only through
comparisons, additions, multiplications and exact literals are modelled as
rationals; uint64 values as Nat (with explicit wraparound where it can occur)
and the signed int sizes as Int; fallible or panicking code returns Option;
loops whose termination is in question take explicit fuel, with fuel
exhaustion returning none or a sentinel noted at the definition.
-/

namespace Osm

/-- Coord is a pair of coordinates (Go: X, Y float64), modelled over ℚ.
Every concrete coordinate appearing in a theorem below is exactly
representable in binary floating point, so Go comparisons and the small
products taken by the shoelace formula agree with the rational model. -/
structure Coord where
  x : ℚ
  y : ℚ
deriving DecidableEq, Repr

instance : Inhabited Coord := ⟨⟨0, 0⟩⟩

/-- Bounds is the [min, max] coordinate of a bounding box (Go: type Bounds
[2]Coord); field c0 is b[0], field c1 is b[1]. -/
structure Bounds where
  c0 : Coord
  c1 : Coord
deriving DecidableEq, Repr

/-- Bounds.Contains (geometry source, lines 216-218): inclusive on all four
edges. -/
def Bounds.contains (b : Bounds) (c : Coord) : Bool :=
  decide (b.c0.x ≤ c.x) && decide (c.x ≤ b.c1.x) &&
  decide (b.c0.y ≤ c.y) && decide (c.y ≤ b.c1.y)

/-- cohenSutherlandOutcode (geometry source, lines 295-308): code starts at
0b0000 and accumulates bit 1 (left), 2 (right), 4 (bottom), 8 (top) by or.
Note both X tests and both Y tests are non-strict, so a coordinate exactly
on an edge of the bounds gets a nonzero outcode. -/
def cohenSutherlandOutcode (bounds : Bounds) (c : Coord) : Nat :=
  (if c.x ≤ bounds.c0.x then 1 else if bounds.c1.x ≤ c.x then 2 else 0) |||
  (if c.y ≤ bounds.c0.y then 4 else if bounds.c1.y ≤ c.y then 8 else 0)

/-- The node pass of Extract emits a node as a point geometry (no filter
case) exactly when its outcode is 0b0000 (extractor source, line 464). -/
def nodePassEmitsPoint (bounds : Bounds) (c : Coord) : Bool :=
  cohenSutherlandOutcode bounds c == 0

/-- The shoelace sum of isCCW (geometry source, lines 255-263): for each i,
cross of coords[i] with coords[(i+1) mod n], accumulated left to right. -/
def shoelace (coords : List Coord) : ℚ :=
  (coords.zip (coords.rotate 1)).foldl
    (fun a pq => a + (pq.1.x * pq.2.y - pq.1.y * pq.2.x)) 0

/-- isCCW (geometry source, lines 255-263): nonnegative shoelace sum. -/
def isCCW (coords : List Coord) : Bool :=
  decide ((0 : ℚ) ≤ shoelace coords)

/-- reverseOrientation (geometry source, lines 265-275): allocates a fresh
slice, fills it with the coordinates in reverse order and RETURNS it; the
argument slice is left untouched. The swap loop writes coords2[i] =
coords[n-1-i] for every i, which is List.reverse. -/
def reverseOrientation (coords : List Coord) : List Coord :=
  coords.reverse

/-- The way-pass polygon emission of Extract (extractor source, lines
558-562): for a closed area way the code runs
  if !isCCW(coords) then reverseOrientation(coords)
and then emits Polygon with the coords and Fill=true. reverseOrientation
returns the reversed copy without mutating its argument, and that return
value is discarded, so the emitted ring is coords unchanged on both
branches. -/
def extractWayAreaRing (coords : List Coord) : List Coord :=
  if !isCCW coords then
    let _ := reverseOrientation coords
    coords
  else coords

/-- The post-clip step of the way pass (extractor source, lines 544-549):
closed ways with fewer than 3 clipped points and open ways with fewer than 2
are dropped (coords set to nil, modelled none); a closed way whose clipped
sequence no longer ends at its first coordinate is re-closed by appending
the first point. -/
def postClipWay (closed : Bool) (coords : List Coord) : Option (List Coord) :=
  if (closed && decide (coords.length < 3)) || (!closed && decide (coords.length < 2)) then
    none
  else if closed && decide (coords.headI ≠ coords.getLastI) then
    some (coords ++ [coords.headI])
  else
    some coords

/-- The closed clockwise test ring of the orientation scenario: the four
corners of a square traversed clockwise, first point repeated last. Its
shoelace sum is -8. -/
def cwAreaRing : List Coord := [⟨0, 0⟩, ⟨0, 2⟩, ⟨2, 2⟩, ⟨2, 0⟩, ⟨0, 0⟩]

/-- appendCoords (geometry source, lines 456-465), with explicit fuel: one
unit per evaluation of the Go loop guard. While a is nonempty and b has at
least two elements: if b[0] equals the last element of a, drop the last
element of a; otherwise if b[1] equals the last element of a, drop the first
two elements of b; otherwise the body changes nothing and the guard is
re-evaluated on the same state, so the Go loop spins forever (modelled by
running out of any finite fuel, returning none). When the guard fails the
function returns a ++ b. -/
def appendCoordsLoop : Nat → List Coord → List Coord → Option (List Coord)
  | 0, _, _ => none
  | fuel + 1, a, b =>
    if 0 < a.length ∧ 1 < b.length then
      if b.headI = a.getLastI then appendCoordsLoop fuel a.dropLast b
      else if b.getD 1 default = a.getLastI then appendCoordsLoop fuel a (b.drop 2)
      else appendCoordsLoop fuel a b
    else some (a ++ b)

/-- The opening of Parse (parser source, lines 1141-1148): the Workers field
below 1 is reinterpreted as the hardware default, but the Seek to offset 0
sits in the else-branch of that very test, so it only happens when Workers
is at least 1. Returns (effective workers, reader position after setup)
given the runtime GOMAXPROCS value and the reader position left by earlier
reads. -/
def parseStart (gomaxprocs : Int) (workersField : Int) (readerPos : Int) :
    Int × Int :=
  if workersField < 1 then (gomaxprocs, readerPos) else (workersField, 0)

/-- readVarint (parser source, lines 164-267). The Go implementation is the
ten-branch unrolling of this loop: stage i first tests len(b) <= i (the []
case here), then reads byte i; for i < 9 a byte below 0x80 ends the value at
length i+1, a byte with the continuation bit contributes its low seven bits
at weight 2^(7i) and moves to stage i+1; stage 9 accepts only a byte below 2.
The accumulator v carries the value decoded so far, exactly as the running
v of the Go code (which adds y<<7i and subtracts 0x80<<7i on continuation);
for byte inputs no uint64 wraparound can occur on any accepting path, so Nat
arithmetic is bit-identical. A stuck or overflowing input returns (0, 0). -/
def readVarintAux : List Nat → Nat → Nat → Nat × Nat
  | [], _, _ => (0, 0)
  | y :: rest, i, v =>
    if i = 9 then
      if y < 2 then (v + y * 2 ^ 63, 10) else (0, 0)
    else if y < 0x80 then (v + y * 2 ^ (7 * i), i + 1)
    else readVarintAux rest (i + 1) (v + (y - 0x80) * 2 ^ (7 * i))

def readVarint (b : List Nat) : Nat × Nat :=
  readVarintAux b 0 0

/-- The zig-zag decode of readSint (parser source, lines 269-272):
int64(val>>1) ^ int64(val)<<63>>63 on two-complement int64 is val>>1 for
even val and the bitwise complement -(val>>1)-1 for odd val. -/
def zigzagDecode (v : Nat) : Int :=
  if v % 2 = 0 then ((v / 2 : Nat) : Int) else -((v / 2 : Nat) : Int) - 1

/-- readSint (parser source, lines 269-272). -/
def readSint (b : List Nat) : Int × Nat :=
  let r := readVarint b
  (zigzagDecode r.1, r.2)

/-- The standard base-128 little-endian varint encoding named by the spec
(the repository has no write path; this is the reference encoder the
round-trip property quantifies over). -/
def encodeVarint (x : Nat) : List Nat :=
  if _h : x < 0x80 then [x] else (x % 0x80 + 0x80) :: encodeVarint (x / 0x80)
termination_by x
decreasing_by
  exact Nat.div_lt_self (by omega) (by omega)

/-- The standard zig-zag encoding (n<<1) XOR (n>>63) of an int64, as a Nat. -/
def zigzagEncode (z : Int) : Nat :=
  if 0 ≤ z then 2 * z.toNat else 2 * (-z - 1).toNat + 1

/-- The two rejection conditions of readVarint on a raw buffer: the buffer
ends while every byte still has the continuation bit (input shorter than the
encoded value), or bytes 0..8 all have the continuation bit and the tenth
byte is at least 2 (uint64 overflow). -/
def varintMalformed (b : List Nat) : Prop :=
  (b.length ≤ 9 ∧ ∀ j, j < b.length → 0x80 ≤ b.getD j 0) ∨
  (10 ≤ b.length ∧ (∀ j, j < 9 → 0x80 ≤ b.getD j 0) ∧ 2 ≤ b.getD 9 0)

/-- The wire type 0 loop of skipField (parser source, lines 281-287): the Go
code returns i+1 at the first index i (up to 8) at which the buffer has
ended or byte i has the HIGH bit SET, and 10 otherwise. -/
def skipFieldVarintScan (buf : List Nat) (i : Nat) : Nat :=
  if i < 9 then
    if buf.length ≤ i ∨ (buf.getD i 0) &&& 0x80 ≠ 0 then i + 1
    else skipFieldVarintScan buf (i + 1)
  else 10
termination_by 9 - i

/-- skipField (parser source, lines 279-297): wire type 0 scans as above;
wire type 1 returns 8; wire type 2 returns the varint length prefix plus the
payload length; wire type 5 returns 4; anything else returns 0. -/
def skipField (buf : List Nat) (wireType : Nat) : Nat :=
  if wireType = 0 then skipFieldVarintScan buf 0
  else if wireType = 1 then 8
  else if wireType = 2 then
    let r := readVarint buf
    r.1 + r.2
  else if wireType = 5 then 4
  else 0

/-- FREE_KEY (hash container source): the reserved free sentinel key 0. -/
def FREE_KEY : Nat := 0

/-- phiMix (hash container source, lines 14-17): uint64 multiply by the
scramble constant (wrapping mod 2^64), xor with the upper shift. -/
def phiMix (x : Nat) : Nat :=
  let h := (x * 0x9E3779B9) % 2 ^ 64
  h ^^^ (h >>> 16)

/-- nextPowerOf2 (hash container source, lines 33-50) on uint32 values. -/
def nextPowerOf2 (x : Nat) : Nat :=
  if x = 4294967295 then x
  else if x = 0 then 1
  else
    let x := x - 1
    let x := x ||| (x >>> 1)
    let x := x ||| (x >>> 2)
    let x := x ||| (x >>> 4)
    let x := x ||| (x >>> 8)
    let x := x ||| (x >>> 16)
    x + 1

/-- arraySize (hash container source, lines 52-58). -/
def arraySize (exp : Nat) (fill : ℚ) : Nat :=
  let s := nextPowerOf2 (⌈(exp : ℚ) / fill⌉.toNat)
  if s < 2 then 2 else s

/-- The uint64 Set (set source, lines 1172-1183): open-addressed key array
(capacity entries), fill factor, rehash threshold, logical size (a Go int,
so modelled as Int: it can go below zero), the two probe masks and the
free-key presence flag. -/
structure U64Set where
  data : List Nat
  fillFactor : ℚ
  threshold : Int
  size : Int
  mask : Nat
  mask2 : Nat
  hasFreeKey : Bool

/-- NewUint64Set (set source, lines 1187-1203) for valid arguments (the Go
constructor panics on a fill factor outside (0,1) or a nonpositive size;
no claim concerns those inputs). -/
def newUint64Set (size : Nat) (fillFactor : ℚ) : U64Set :=
  let capacity := arraySize size fillFactor
  { data := List.replicate capacity FREE_KEY
    fillFactor := fillFactor
    threshold := ⌊(capacity : ℚ) * fillFactor⌋
    size := 0
    mask := capacity - 1
    mask2 := capacity - 1
    hasFreeKey := false }

/-- The probe loop of Set.Has (set source, lines 1224-1233), fuelled by one
more than the array length; a full array with the key absent would spin in
Go, which cannot happen while size stays below the threshold. -/
def setHasProbe (data : List Nat) (mask2 key : Nat) : Nat → Nat → Bool
  | _, 0 => false
  | ptr, fuel + 1 =>
    let ptr2 := (ptr + 1) &&& mask2
    let k := data.getD ptr2 0
    if k = FREE_KEY then false
    else if k = key then true
    else setHasProbe data mask2 key ptr2 fuel

/-- Set.Has (set source, lines 1206-1234). -/
def setHas (s : U64Set) (key : Nat) : Bool :=
  if key = FREE_KEY then s.hasFreeKey
  else
    let ptr := phiMix key &&& s.mask
    let k := s.data.getD ptr 0
    if k = key then true
    else setHasProbe s.data s.mask2 key ptr (s.data.length + 1)

/-- The inner scan of Set.shiftKeys (set source, lines 1320-1338): starting
at pos, find either the FREE slot ending the chain (none) or the next entry
that must be relocated into the slot last (some (key, position)). -/
def setShiftScan (data : List Nat) (mask mask2 last : Nat) : Nat → Nat → Option (Nat × Nat)
  | _, 0 => none
  | pos, fuel + 1 =>
    let k := data.getD pos 0
    if k = FREE_KEY then none
    else
      let slot := phiMix k &&& mask
      let brk :=
        if last ≤ pos then slot ≤ last ∨ pos < slot
        else slot ≤ last ∧ pos < slot
      if brk then some (k, pos)
      else setShiftScan data mask mask2 last ((pos + 1) &&& mask2) fuel

/-- Set.shiftKeys (set source, lines 1312-1341): back-shift deletion; the
outer loop moves one entry per iteration and ends by freeing the last
vacated slot. -/
def setShiftKeys (mask mask2 : Nat) : Nat → List Nat → Nat → List Nat
  | 0, data, _ => data
  | fuel + 1, data, pos =>
    let last := pos
    match setShiftScan data mask mask2 last ((last + 1) &&& mask2) (data.length + 1) with
    | none => data.set last FREE_KEY
    | some (k, pos2) => setShiftKeys mask mask2 fuel (data.set last k) pos2

/-- The probe loop of Set.Del (set source, lines 1298-1309). -/
def setDelProbe (mask mask2 key : Nat) : Nat → List Nat → Nat → (List Nat × Bool)
  | 0, data, _ => (data, false)
  | fuel + 1, data, ptr =>
    let ptr2 := (ptr + 1) &&& mask2
    let k := data.getD ptr2 0
    if k = key then (setShiftKeys mask mask2 (data.length + 1) data ptr2, true)
    else if k = FREE_KEY then (data, false)
    else setDelProbe mask mask2 key fuel data ptr2

/-- Set.Del (set source, lines 1280-1310). The key = FREE_KEY branch clears
hasFreeKey and decrements size UNCONDITIONALLY, without checking whether the
free key is present (the Map version of Del does check). -/
def setDel (s : U64Set) (key : Nat) : U64Set :=
  if key = FREE_KEY then { s with hasFreeKey := false, size := s.size - 1 }
  else
    let ptr := phiMix key &&& s.mask
    let k := s.data.getD ptr 0
    if k = key then
      { s with data := setShiftKeys s.mask s.mask2 (s.data.length + 1) s.data ptr,
               size := s.size - 1 }
    else if k = FREE_KEY then s
    else
      let r := setDelProbe s.mask s.mask2 key (s.data.length + 1) s.data ptr
      { s with data := r.1, size := if r.2 then s.size - 1 else s.size }

/-- MaxRelationDepth (stats source, line 540). -/
def MaxRelationDepth : Nat := 16

/-- math.MaxInt on a 64-bit platform, the recursion sentinel of
relationDepth. -/
def maxIntSentinel : Nat := 2 ^ 63 - 1

/-- relationDepth (stats source, lines 860-871). The Go function returns
MaxInt as soon as MaxRelationDepth <= Depth; here fuel stands for
MaxRelationDepth - Depth, so fuel 0 is exactly that branch, and each
recursive step over the parents of id spends one unit. The fold keeps the
maximum of the child depths, starting from the current depth. -/
def relationDepth (parents : Nat → List Nat) : Nat → Nat → Nat → Nat
  | 0, _, _ => maxIntSentinel
  | fuel + 1, id, depth =>
    (parents id).foldl (fun acc p => max acc (relationDepth parents fuel p (depth + 1))) depth

/-- The accumulator of the relationRelationIDs.Iterate loop of Stats (stats
source, lines 836-850). -/
structure DepthAccum where
  numRelationDepths : List Nat
  numRecursiveRelations : Nat
  missingRelationRelations : Nat
deriving DecidableEq, Repr

/-- One iteration of the relationRelationIDs.Iterate loop of Stats (stats
source, lines 836-850): a referenced relation id absent from the parsed
relation ids counts as missing; one whose depth hits the cap counts as
recursive; otherwise NumRelationDepths is grown to depth+1 entries and the
bucket at depth incremented. -/
def statsDepthStep (relationIDs : List Nat) (parents : Nat → List Nat)
    (acc : DepthAccum) (id : Nat) : DepthAccum :=
  if ¬ relationIDs.contains id then
    { acc with missingRelationRelations := acc.missingRelationRelations + 1 }
  else
    let depth := relationDepth parents MaxRelationDepth id 0
    if depth = maxIntSentinel then
      { acc with numRecursiveRelations := acc.numRecursiveRelations + 1 }
    else
      let ds := acc.numRelationDepths ++
        List.replicate (depth + 1 - acc.numRelationDepths.length) 0
      { acc with numRelationDepths := ds.set depth (ds.getD depth 0 + 1) }

/-- The tail of Stats (stats source, lines 836-857): run the iterate loop
over the distinct referenced relation ids, then unconditionally assign
NumRelationDepths[0] = NumRelations - (count - MissingRelationRelations).
The Go assignment indexes the slice with no bounds guard; when the loop
never grew the slice the index is out of range and Stats panics, modelled
as none. -/
def statsRelationDepths (relationIDs refdRelationIDs : List Nat)
    (parents : Nat → List Nat) (numRelations : Nat) : Option (List Nat) :=
  let acc := refdRelationIDs.foldl (statsDepthStep relationIDs parents) ⟨[], 0, 0⟩
  if acc.numRelationDepths.length = 0 then none
  else some (acc.numRelationDepths.set 0
    (numRelations - (refdRelationIDs.length - acc.missingRelationRelations)))

/-- Member types (parser source): node, way, relation. -/
inductive MType where
  | node
  | way
  | relation
deriving DecidableEq, Repr

/-- A relation member: id, member type, role. -/
structure Member where
  id : Nat
  type : MType
  role : String
deriving DecidableEq, Repr

/-- The contents of the three selection maps of Extract, viewed as finite
maps from id to class (the dense uint64 Map refined to its logical
contents; pass 0 only uses Put, for which the dense map behaves as a plain
map). -/
structure SelState where
  selectedNodes : Nat → Option Nat
  selectedWays : Nat → Option Nat
  selectedRelations : Nat → Option Nat

/-- Map.Put on the logical contents. -/
def putU64 (m : Nat → Option Nat) (k v : Nat) : Nat → Option Nat :=
  fun x => if x = k then some v else m x

/-- The three empty selection maps Extract starts from. -/
def emptySel : SelState := ⟨fun _ => none, fun _ => none, fun _ => none⟩

/-- The pass 0 relationFunc of Extract (extractor source, lines 387-417)
applied to one relation, where cls is the result of the filter: when cls is
nonzero the member ids of way and node members are collected in order, the
relation id is recorded in selectedRelations ONLY when at least one way or
node member exists, every way member id is put in selectedWays with class 0
and every node member id in selectedNodes with class 0. The Go code updates
the three maps one after the other under separate mutexes; the updates touch
distinct maps, so they are given field-wise here. -/
def pass0Relation (sel : SelState) (relId cls : Nat) (members : List Member) : SelState :=
  if cls ≠ 0 then
    let ways := (members.filter (fun m => m.type == MType.way)).map Member.id
    let nodes := (members.filter (fun m => m.type == MType.node)).map Member.id
    { selectedRelations :=
        if 0 < ways.length ∨ 0 < nodes.length then putU64 sel.selectedRelations relId cls
        else sel.selectedRelations
      selectedWays :=
        if 0 < ways.length then ways.foldl (fun m i => putU64 m i 0) sel.selectedWays
        else sel.selectedWays
      selectedNodes :=
        if 0 < nodes.length then nodes.foldl (fun m i => putU64 m i 0) sel.selectedNodes
        else sel.selectedNodes }
  else sel

/-- An outcode of zero means strictly inside the open rectangle. -/
theorem cohenSutherlandOutcode_eq_zero_iff (b : Bounds) (d : Coord) :
    cohenSutherlandOutcode b d = 0 ↔
      (b.c0.x < d.x ∧ d.x < b.c1.x ∧ b.c0.y < d.y ∧ d.y < b.c1.y) := by
  unfold cohenSutherlandOutcode
  constructor
  · intro h
    split_ifs at h <;>
      first
        | (exact absurd h (by decide))
        | (push_neg at *; exact ⟨by linarith, by linarith, by linarith, by linarith⟩)
  · rintro ⟨a1, a2, a3, a4⟩
    split_ifs <;> first | rfl | (exfalso; linarith)

/-- C10: a node whose coordinate lies exactly on an edge of the bounds
rectangle gets a nonzero Cohen-Sutherland outcode, so the node pass of
Extract does not emit it as a point geometry even though Bounds.Contains
returns true for the same coordinate; a node is emitted exactly when its
coordinate is strictly inside the open rectangle. -/
theorem node_on_bounds_edge_outcode_nonzero (b : Bounds) (c : Coord)
    (hin : b.contains c = true)
    (hedge : c.x = b.c0.x ∨ c.x = b.c1.x ∨ c.y = b.c0.y ∨ c.y = b.c1.y) :
    cohenSutherlandOutcode b c ≠ 0 ∧ nodePassEmitsPoint b c = false ∧
      b.contains c = true ∧
      ∀ d : Coord, nodePassEmitsPoint b d = true ↔
        (b.c0.x < d.x ∧ d.x < b.c1.x ∧ b.c0.y < d.y ∧ d.y < b.c1.y) := by
  have hnz : cohenSutherlandOutcode b c ≠ 0 := by
    intro h0
    rcases (cohenSutherlandOutcode_eq_zero_iff b c).1 h0 with ⟨a1, a2, a3, a4⟩
    rcases hedge with he | he | he | he <;> linarith
  refine ⟨hnz, ?_, hin, ?_⟩
  · simpa [nodePassEmitsPoint] using hnz
  · intro d
    rw [show nodePassEmitsPoint b d = true ↔ cohenSutherlandOutcode b d = 0 by
      simp [nodePassEmitsPoint]]
    exact cohenSutherlandOutcode_eq_zero_iff b d

/-- Witness for C10 at bounds [(-1,-1),(1,1)] and the edge point (1,0). -/
theorem node_on_bounds_edge_outcode_nonzero_witness :
    cohenSutherlandOutcode ⟨⟨-1, -1⟩, ⟨1, 1⟩⟩ ⟨1, 0⟩ ≠ 0 ∧
    nodePassEmitsPoint ⟨⟨-1, -1⟩, ⟨1, 1⟩⟩ ⟨1, 0⟩ = false ∧
    Bounds.contains ⟨⟨-1, -1⟩, ⟨1, 1⟩⟩ ⟨1, 0⟩ = true ∧
    ∀ d : Coord, nodePassEmitsPoint ⟨⟨-1, -1⟩, ⟨1, 1⟩⟩ d = true ↔
      ((-1 : ℚ) < d.x ∧ d.x < 1 ∧ (-1 : ℚ) < d.y ∧ d.y < 1) :=
  node_on_bounds_edge_outcode_nonzero ⟨⟨-1, -1⟩, ⟨1, 1⟩⟩ ⟨1, 0⟩
    (by norm_num [Bounds.contains]) (Or.inr (Or.inl rfl))

/-- C8: the post-clip step drops a closed way with fewer than 3 clipped
points, drops an open way with fewer than 2 clipped points, and re-closes a
closed way whose clipped sequence no longer ends at its first coordinate by
appending the first point. -/
theorem extract_way_postclip_contract (closed : Bool) (coords : List Coord) :
    (closed = true → coords.length < 3 → postClipWay closed coords = none) ∧
    (closed = false → coords.length < 2 → postClipWay closed coords = none) ∧
    (closed = true → 3 ≤ coords.length → coords.headI ≠ coords.getLastI →
      postClipWay closed coords = some (coords ++ [coords.headI])) := by
  refine ⟨?_, ?_, ?_⟩
  · intro hc hl
    subst hc
    simp [postClipWay, hl]
  · intro hc hl
    subst hc
    simp [postClipWay, hl]
  · intro hc hl hne
    subst hc
    simp [postClipWay, Nat.not_lt.mpr hl, hne]

/-- Witness for C8: a closed two-point sequence is dropped, an open
one-point sequence is dropped, and a closed three-point sequence that does
not return to its head is re-closed. -/
theorem extract_way_postclip_contract_witness :
    postClipWay true [⟨0, 0⟩, ⟨1, 0⟩] = none ∧
    postClipWay false [⟨0, 0⟩] = none ∧
    postClipWay true [⟨0, 0⟩, ⟨1, 0⟩, ⟨1, 1⟩] =
      some [⟨0, 0⟩, ⟨1, 0⟩, ⟨1, 1⟩, ⟨0, 0⟩] :=
  ⟨(extract_way_postclip_contract true [⟨0, 0⟩, ⟨1, 0⟩]).1 rfl (by norm_num),
   (extract_way_postclip_contract false [⟨0, 0⟩]).2.1 rfl (by norm_num),
   (extract_way_postclip_contract true [⟨0, 0⟩, ⟨1, 0⟩, ⟨1, 1⟩]).2.2 rfl
     (by norm_num)
     (by norm_num [List.headI, List.getLastI])⟩

/-- C1 (code bug): a clockwise closed area-tagged way fails isCCW, yet the
way pass emits its ring unreversed with Fill=true, because the return value
of reverseOrientation is discarded at the call site; the emitted filled
ring has negative shoelace area, contradicting the orientation contract
stated in the documentation of Extract. -/
theorem extract_way_cw_area_ring_emitted_unreversed :
    isCCW cwAreaRing = false ∧
    extractWayAreaRing cwAreaRing = cwAreaRing ∧
    shoelace (extractWayAreaRing cwAreaRing) < 0 ∧
    shoelace (reverseOrientation cwAreaRing) > 0 := by
  have h : shoelace cwAreaRing = -8 := by
    norm_num [shoelace, cwAreaRing, List.rotate]
  have hrev : shoelace (reverseOrientation cwAreaRing) = 8 := by
    norm_num [shoelace, reverseOrientation, cwAreaRing, List.rotate]
  have hccw : isCCW cwAreaRing = false := by
    simp [isCCW, h]
  refine ⟨hccw, ?_, ?_, ?_⟩
  · simp [extractWayAreaRing, hccw]
  · simp only [extractWayAreaRing, hccw]
    simp [h]
  · simp [hrev]

/-- C6 (code bug): for wire type 0 skipField does not return the byte length
of the varint at the start of the buffer. On [0x80, 0x01], the two-byte
encoding of 128, readVarint consumes 2 bytes but skipField returns 1 (the
loop condition returns at a SET continuation bit instead of a clear one);
on [0x05, 0x08] the varint is a single byte yet skipField scans past it and
returns 3. The other wire types behave as specified. -/
theorem skipField_wire0_wrong_varint_length :
    skipField [0x80, 0x01] 0 = 1 ∧ (readVarint [0x80, 0x01]).2 = 2 ∧
    skipField [0x05, 0x08] 0 = 3 ∧ (readVarint [0x05, 0x08]).2 = 1 ∧
    skipField [0x80, 0x01] 1 = 8 ∧ skipField [0x03, 0x07, 0x07, 0x07] 2 = 4 ∧
    skipField [0x80, 0x01] 5 = 4 ∧ skipField [0x80, 0x01] 3 = 0 := by
  refine ⟨?_, ?_, ?_, ?_, ?_, ?_, ?_, ?_⟩ <;>
    simp [skipField, skipFieldVarintScan, readVarint, readVarintAux] <;> decide

/-- C2 (code bug): joining the two open ways A = [(0,0),(1,0)] and
B = [(1,0),(2,0)], which share their junction coordinate exactly as when
both endpoint nodes lie inside the bounds, never terminates: after dropping
the duplicated junction point from A the loop guard still holds but neither
branch of the body applies, so no amount of fuel suffices. -/
theorem appendCoords_diverges_on_shared_endpoint_ways :
    ∀ fuel, appendCoordsLoop fuel [⟨0, 0⟩, ⟨1, 0⟩] [⟨1, 0⟩, ⟨2, 0⟩] = none := by
  have stuck : ∀ fuel, appendCoordsLoop fuel [⟨0, 0⟩] [⟨1, 0⟩, ⟨2, 0⟩] = none := by
    intro fuel
    induction fuel with
    | zero => rfl
    | succ n ih =>
      rw [show appendCoordsLoop (n + 1) [⟨0, 0⟩] [⟨1, 0⟩, ⟨2, 0⟩] =
          appendCoordsLoop n [⟨0, 0⟩] [⟨1, 0⟩, ⟨2, 0⟩] by
        simp [appendCoordsLoop, List.headI, List.getLastI]]
      exact ih
  intro fuel
  cases fuel with
  | zero => rfl
  | succ n =>
    rw [show appendCoordsLoop (n + 1) [⟨0, 0⟩, ⟨1, 0⟩] [⟨1, 0⟩, ⟨2, 0⟩] =
        appendCoordsLoop n [⟨0, 0⟩] [⟨1, 0⟩, ⟨2, 0⟩] by
      simp [appendCoordsLoop, List.headI, List.getLastI, List.dropLast]]
    exact stuck n

/-- C9 (code bug): with Workers = 0 (the constructor default is positive,
but 0 or any negative value is documented as reinterpreted) a Parse call
does not seek the reader back to byte 0: from reader position 42 the blob
loop starts reading at 42. With Workers = 4 the seek happens. -/
theorem parse_seek_skipped_when_workers_below_one :
    parseStart 8 0 42 = (8, 42) ∧ parseStart 8 (-3) 42 = (8, 42) ∧
    parseStart 8 4 42 = (4, 0) := by
  refine ⟨?_, ?_, ?_⟩ <;> rfl

/-- Decoding the canonical encoding from any stage i with any accumulator v:
the remaining value x must fit in the stages left. -/
theorem readVarintAux_encode (x : Nat) : ∀ i v, i ≤ 9 →
    x < 2 ^ (7 * (9 - i) + 1) →
    readVarintAux (encodeVarint x) i v =
      (v + x * 2 ^ (7 * i), i + (encodeVarint x).length) := by
  induction x using Nat.strong_induction_on with
  | _ x ih =>
    intro i v hi hx
    by_cases h9 : i = 9
    · subst h9
      have hx2 : x < 2 := by simpa using hx
      rw [encodeVarint]
      rw [dif_pos (by omega : x < 0x80)]
      simp [readVarintAux, hx2]
    · have hi8 : i < 9 := by omega
      by_cases h128 : x < 0x80
      · rw [encodeVarint, dif_pos h128]
        simp [readVarintAux, h9, h128]
      · rw [encodeVarint, dif_neg h128]
        have hstep : readVarintAux ((x % 0x80 + 0x80) :: encodeVarint (x / 0x80)) i v =
            readVarintAux (encodeVarint (x / 0x80)) (i + 1)
              (v + (x % 0x80) * 2 ^ (7 * i)) := by
          have hge : ¬ (x % 0x80 + 0x80 < 0x80) := by omega
          simp [readVarintAux, h9, hge]
        rw [hstep]
        have hdivlt : x / 0x80 < x := Nat.div_lt_self (by omega) (by omega)
        have hbound : x / 0x80 < 2 ^ (7 * (9 - (i + 1)) + 1) := by
          have h1 : x < 2 ^ (7 * (9 - (i + 1)) + 1) * 0x80 := by
            have he : 7 * (9 - (i + 1)) + 1 + 7 = 7 * (9 - i) + 1 := by omega
            calc x < 2 ^ (7 * (9 - i) + 1) := hx
            _ = 2 ^ (7 * (9 - (i + 1)) + 1) * 2 ^ 7 := by rw [← pow_add]; rw [he]
          exact Nat.div_lt_of_lt_mul (by linarith [h1])
        rw [ih (x / 0x80) hdivlt (i + 1) (v + (x % 0x80) * 2 ^ (7 * i)) (by omega) hbound]
        simp only [Prod.mk.injEq]
        refine ⟨?_, ?_⟩
        · show v + x % 0x80 * 2 ^ (7 * i) + x / 0x80 * 2 ^ (7 * (i + 1)) =
            v + x * 2 ^ (7 * i)
          have hp : 2 ^ (7 * (i + 1)) = 2 ^ (7 * i) * 0x80 := by
            rw [show 7 * (i + 1) = 7 * i + 7 by ring, pow_add]; norm_num
          rw [hp]
          have hx2 : x % 0x80 + 0x80 * (x / 0x80) = x := Nat.mod_add_div x 0x80
          have key : x % 0x80 * 2 ^ (7 * i) + x / 0x80 * (2 ^ (7 * i) * 0x80) =
              x * 2 ^ (7 * i) := by
            calc x % 0x80 * 2 ^ (7 * i) + x / 0x80 * (2 ^ (7 * i) * 0x80)
                = (x % 0x80 + 0x80 * (x / 0x80)) * 2 ^ (7 * i) := by ring
              _ = x * 2 ^ (7 * i) := by rw [hx2]
          rw [add_assoc, key]
        · show i + 1 + (encodeVarint (x / 0x80)).length =
            i + ((x % 0x80 + 0x80) :: encodeVarint (x / 0x80)).length
          simp [List.length_cons]
          omega

/-- The varint round trip for every uint64 value. -/
theorem readVarint_encode_roundtrip (x : Nat) (hx : x < 2 ^ 64) :
    readVarint (encodeVarint x) = (x, (encodeVarint x).length) := by
  have h := readVarintAux_encode x 0 0 (by omega) (by simpa using hx)
  simpa [readVarint] using h

/-- The zig-zag decode inverts the zig-zag encode on every integer. -/
theorem zigzagDecode_encode (z : Int) : zigzagDecode (zigzagEncode z) = z := by
  unfold zigzagDecode zigzagEncode
  by_cases hz : 0 ≤ z
  · rw [if_pos hz]
    have h2 : 2 * z.toNat % 2 = 0 := by omega
    rw [if_pos h2]
    omega
  · rw [if_neg hz]
    rw [if_neg (by omega)]
    have hdiv : (2 * (-z - 1).toNat + 1) / 2 = (-z - 1).toNat := by omega
    rw [hdiv]
    omega

/-- The zig-zag image of an int64 fits in a uint64. -/
theorem zigzagEncode_lt (z : Int) (h1 : -(2 ^ 63) ≤ z) (h2 : z < 2 ^ 63) :
    zigzagEncode z < 2 ^ 64 := by
  unfold zigzagEncode
  by_cases hz : 0 ≤ z
  · rw [if_pos hz]; omega
  · rw [if_neg hz]; omega

/-- Splitting a bounded universally quantified getD fact at a cons cell. -/
theorem forall_getD_cons {y : Nat} {rest : List Nat} {n : Nat} {P : Nat → Prop} :
    (∀ j, j < n + 1 → P ((y :: rest).getD j 0)) ↔
      (P y ∧ ∀ j, j < n → P (rest.getD j 0)) := by
  constructor
  · intro h
    exact ⟨by simpa using h 0 (by omega), fun j hj => by simpa using h (j + 1) (by omega)⟩
  · rintro ⟨hy, h⟩ j hj
    cases j with
    | zero => simpa using hy
    | succ k => simpa using h k (by omega)

/-- The stage-indexed characterization of the (0, 0) result. -/
theorem readVarintAux_zero_iff (b : List Nat) : ∀ i v, i ≤ 9 →
    ((readVarintAux b i v).2 = 0 ↔
      (b.length ≤ 9 - i ∧ ∀ j, j < b.length → 0x80 ≤ b.getD j 0) ∨
      (10 - i ≤ b.length ∧ (∀ j, j < 9 - i → 0x80 ≤ b.getD j 0) ∧
        2 ≤ b.getD (9 - i) 0)) := by
  induction b with
  | nil =>
    intro i v hi
    simp [readVarintAux]
  | cons y rest ih =>
    intro i v hi
    by_cases h9 : i = 9
    · subst h9
      simp only [readVarintAux, if_pos rfl, Nat.sub_self, List.length_cons]
      by_cases hy : y < 2
      · rw [if_pos hy]
        constructor
        · intro h; exact absurd h (by norm_num)
        · rintro (⟨hl, _⟩ | ⟨_, _, hge⟩)
          · omega
          · have hg : (y :: rest).getD 0 0 = y := rfl
            rw [hg] at hge; omega
      · rw [if_neg hy]
        constructor
        · intro _
          refine Or.inr ⟨by omega, ?_, ?_⟩
          · intro j hj; omega
          · show 2 ≤ (y :: rest).getD 0 0
            have hg : (y :: rest).getD 0 0 = y := rfl
            rw [hg]; omega
        · intro _; rfl
    · have hi8 : i < 9 := by omega
      have hsub1 : 9 - i = (9 - (i + 1)) + 1 := by omega
      by_cases hy : y < 0x80
      · have hv : readVarintAux (y :: rest) i v = (v + y * 2 ^ (7 * i), i + 1) := by
          simp [readVarintAux, h9, hy]
        rw [hv]
        constructor
        · intro h; exact absurd h (by simp)
        · rintro (⟨_, hall⟩ | ⟨_, hall, _⟩)
          · have h0 := hall 0 (by simp)
            have hg : (y :: rest).getD 0 0 = y := rfl
            rw [hg] at h0; omega
          · have h0 := hall 0 (by omega)
            have hg : (y :: rest).getD 0 0 = y := rfl
            rw [hg] at h0; omega
      · have hy' : 0x80 ≤ y := by omega
        have hstep : readVarintAux (y :: rest) i v =
            readVarintAux rest (i + 1) (v + (y - 0x80) * 2 ^ (7 * i)) := by
          simp [readVarintAux, h9, hy]
        rw [hstep, ih (i + 1) (v + (y - 0x80) * 2 ^ (7 * i)) (by omega)]
        have e1 : ((y :: rest).length ≤ 9 - i ∧
              ∀ j, j < (y :: rest).length → 0x80 ≤ (y :: rest).getD j 0) ↔
            (rest.length ≤ 9 - (i + 1) ∧
              ∀ j, j < rest.length → 0x80 ≤ rest.getD j 0) := by
          rw [List.length_cons, forall_getD_cons]
          constructor
          · rintro ⟨hl, _, hall⟩; exact ⟨by omega, hall⟩
          · rintro ⟨hl, hall⟩; exact ⟨by omega, hy', hall⟩
        have e2 : (10 - i ≤ (y :: rest).length ∧
              (∀ j, j < 9 - i → 0x80 ≤ (y :: rest).getD j 0) ∧
              2 ≤ (y :: rest).getD (9 - i) 0) ↔
            (10 - (i + 1) ≤ rest.length ∧
              (∀ j, j < 9 - (i + 1) → 0x80 ≤ rest.getD j 0) ∧
              2 ≤ rest.getD (9 - (i + 1)) 0) := by
          rw [List.length_cons, hsub1, forall_getD_cons]
          have hgd : (y :: rest).getD ((9 - (i + 1)) + 1) 0 =
              rest.getD (9 - (i + 1)) 0 := rfl
          rw [hgd]
          constructor
          · rintro ⟨hl, ⟨_, hall⟩, hge⟩; exact ⟨by omega, hall, hge⟩
          · rintro ⟨hl, hall, hge⟩; exact ⟨by omega, ⟨hy', hall⟩, hge⟩
        rw [e1, e2]

/-- readVarint rejects a buffer exactly when the buffer ends inside the
value or the tenth byte overflows a uint64. -/
theorem readVarint_zero_iff (b : List Nat) :
    (readVarint b).2 = 0 ↔ varintMalformed b := by
  have h := readVarintAux_zero_iff b 0 0 (by omega)
  simpa [readVarint, varintMalformed] using h

/-- C3: readVarint decodes the canonical base-128 encoding of every uint64
back to the value together with the encoded length; readSint decodes the
zigzag-then-varint encoding of every int64; and on every byte buffer
readVarint returns n = 0 exactly when the buffer is shorter than the encoded
value or the tenth byte is at least 2. -/
theorem varint_codec_contract :
    (∀ x : Nat, x < 2 ^ 64 →
      readVarint (encodeVarint x) = (x, (encodeVarint x).length)) ∧
    (∀ z : Int, -(2 ^ 63) ≤ z → z < 2 ^ 63 →
      readSint (encodeVarint (zigzagEncode z)) =
        (z, (encodeVarint (zigzagEncode z)).length)) ∧
    (∀ b : List Nat, (∀ j, j < b.length → b.getD j 0 < 256) →
      ((readVarint b).2 = 0 ↔ varintMalformed b)) := by
  refine ⟨readVarint_encode_roundtrip, ?_, fun b _ => readVarint_zero_iff b⟩
  intro z h1 h2
  have hlt := zigzagEncode_lt z h1 h2
  have hr := readVarint_encode_roundtrip (zigzagEncode z) hlt
  simp only [readSint, hr, zigzagDecode_encode]

/-- Witness for C3: 300 encodes to the two bytes [0xAC, 0x02] and decodes
back; -3 zigzag-encodes to 5 and round-trips through readSint; the lone
continuation byte 0x80 is rejected with n = 0. -/
theorem varint_codec_contract_witness :
    readVarint (encodeVarint 300) = (300, 2) ∧
    readSint (encodeVarint (zigzagEncode (-3))) = (-3, 1) ∧
    (readVarint [0x80]).2 = 0 := by
  have he : encodeVarint 300 = [172, 2] := by
    rw [encodeVarint]; norm_num; rw [encodeVarint]; norm_num
  have hz : zigzagEncode (-3) = 5 := by rw [zigzagEncode]; norm_num; omega
  have hz5 : encodeVarint 5 = [5] := by rw [encodeVarint]; norm_num
  refine ⟨?_, ?_, ?_⟩
  · have h := varint_codec_contract.1 300 (by norm_num)
    rw [h, he]
    norm_num
  · have h := varint_codec_contract.2.1 (-3) (by norm_num) (by norm_num)
    rw [h, hz, hz5]
    norm_num
  · exact (varint_codec_contract.2.2 [0x80] (by
      intro j hj
      simp only [List.length_cons, List.length_nil] at hj
      interval_cases j <;> norm_num)).2
      (Or.inl ⟨by norm_num, by
        intro j hj
        simp only [List.length_cons, List.length_nil] at hj
        interval_cases j <;> norm_num⟩)

/-- C4 (code bug): deleting the absent key 0 from a freshly constructed
uint64 Set decrements size to -1 because Set.Del does not check hasFreeKey
before decrementing, while the reference set is unchanged and empty: Has
still answers false for 0 before and after, yet Size no longer equals the
number of distinct live keys (0). -/
theorem set_del_absent_free_key_size_negative :
    (newUint64Set 8 (3/5)).size = 0 ∧
    setHas (newUint64Set 8 (3/5)) 0 = false ∧
    (setDel (newUint64Set 8 (3/5)) 0).size = -1 ∧
    setHas (setDel (newUint64Set 8 (3/5)) 0) 0 = false ∧
    (setDel (newUint64Set 8 (3/5)) 0).size ≠ 0 := by
  refine ⟨rfl, rfl, rfl, rfl, by norm_num [setDel, newUint64Set, FREE_KEY]⟩

/-- C5 (code bug): when no relation references another relation the iterate
loop over referenced relation ids never grows NumRelationDepths, and the
final unguarded assignment NumRelationDepths[0] = ... indexes an empty
slice: Stats panics (none) instead of returning statistics. This covers any
input without relation-type members, such as a file of a single node, or
one relation with only node and way members. With an actual reference
present the assignment succeeds. -/
theorem stats_depths_panics_without_relation_refs :
    statsRelationDepths [1] [] (fun _ => []) 1 = none ∧
    statsRelationDepths [] [] (fun _ => []) 0 = none ∧
    statsRelationDepths [1, 2] [2] (fun n => if n = 2 then [1] else []) 2 =
      some [1, 1] := by
  refine ⟨rfl, rfl, by decide⟩

/-- The value at k after folding putU64 updates over keys not containing k
is unchanged. -/
theorem foldl_putU64_not_mem (l : List Nat) (m : Nat → Option Nat) (k : Nat)
    (hk : k ∉ l) :
    (l.foldl (fun acc i => putU64 acc i 0) m) k = m k := by
  induction l generalizing m with
  | nil => rfl
  | cons x xs ih =>
    simp only [List.foldl_cons]
    rw [ih _ (fun h => hk (List.mem_cons_of_mem _ h))]
    unfold putU64
    rw [if_neg (by
      intro h
      exact hk (by rw [h]; exact List.mem_cons_self x xs))]

/-- The value at k after folding putU64 updates over keys containing k is
some 0. -/
theorem foldl_putU64_mem (l : List Nat) (m : Nat → Option Nat) (k : Nat)
    (hk : k ∈ l) :
    (l.foldl (fun acc i => putU64 acc i 0) m) k = some 0 := by
  induction l generalizing m with
  | nil => cases hk
  | cons x xs ih =>
    simp only [List.foldl_cons]
    by_cases hx : k ∈ xs
    · exact ih _ hx
    · have hkx : k = x := by
        rcases List.mem_cons.mp hk with h | h
        · exact h
        · exact absurd h hx
      subst hkx
      rw [foldl_putU64_not_mem xs _ k hx]
      simp [putU64]

/-- Counterexample to C7 as stated: a relation with a nonzero filter class
but no node or way member (here: no members at all) is NOT recorded in
selectedRelations. -/
theorem pass0_memberless_relation_not_recorded :
    (pass0Relation emptySel 7 5 []).selectedRelations 7 ≠ some 5 := by
  simp [pass0Relation, emptySel]

/-- C7 as amended: when the filter class is nonzero, a relation with at
least one node or way member has its class recorded in selectedRelations
under its id, every way member id is inserted into selectedWays with class
0, and every node member id into selectedNodes with class 0. -/
theorem pass0_records_selected_relation_and_dependencies
    (sel : SelState) (relId cls : Nat) (members : List Member) (hcls : cls ≠ 0) :
    ((∃ m ∈ members, m.type = MType.node ∨ m.type = MType.way) →
      (pass0Relation sel relId cls members).selectedRelations relId = some cls) ∧
    (∀ m ∈ members, m.type = MType.way →
      (pass0Relation sel relId cls members).selectedWays m.id = some 0) ∧
    (∀ m ∈ members, m.type = MType.node →
      (pass0Relation sel relId cls members).selectedNodes m.id = some 0) := by
  unfold pass0Relation
  rw [if_pos hcls]
  refine ⟨?_, ?_, ?_⟩
  · rintro ⟨m, hm, hty | hty⟩
    · have hmem : m.id ∈ (members.filter (fun m => m.type == MType.node)).map Member.id :=
        List.mem_map_of_mem _ (List.mem_filter.mpr ⟨hm, by simp [hty]⟩)
      have hlen : 0 < ((members.filter (fun m => m.type == MType.node)).map Member.id).length :=
        List.length_pos.mpr (fun h => by simp [h] at hmem)
      simp only []
      rw [if_pos (Or.inr hlen)]
      simp [putU64]
    · have hmem : m.id ∈ (members.filter (fun m => m.type == MType.way)).map Member.id :=
        List.mem_map_of_mem _ (List.mem_filter.mpr ⟨hm, by simp [hty]⟩)
      have hlen : 0 < ((members.filter (fun m => m.type == MType.way)).map Member.id).length :=
        List.length_pos.mpr (fun h => by simp [h] at hmem)
      simp only []
      rw [if_pos (Or.inl hlen)]
      simp [putU64]
  · intro m hm hty
    have hmem : m.id ∈ (members.filter (fun m => m.type == MType.way)).map Member.id :=
      List.mem_map_of_mem _ (List.mem_filter.mpr ⟨hm, by simp [hty]⟩)
    have hlen : 0 < ((members.filter (fun m => m.type == MType.way)).map Member.id).length :=
      List.length_pos.mpr (fun h => by simp [h] at hmem)
    simp only []
    rw [if_pos hlen]
    exact foldl_putU64_mem _ _ _ hmem
  · intro m hm hty
    have hmem : m.id ∈ (members.filter (fun m => m.type == MType.node)).map Member.id :=
      List.mem_map_of_mem _ (List.mem_filter.mpr ⟨hm, by simp [hty]⟩)
    have hlen : 0 < ((members.filter (fun m => m.type == MType.node)).map Member.id).length :=
      List.length_pos.mpr (fun h => by simp [h] at hmem)
    simp only []
    rw [if_pos hlen]
    exact foldl_putU64_mem _ _ _ hmem

/-- Witness for the amended C7 at a relation with one node member and one
way member. -/
theorem pass0_records_witness :
    (pass0Relation emptySel 1 2
      [⟨10, MType.node, "x"⟩, ⟨20, MType.way, "y"⟩]).selectedRelations 1 = some 2 ∧
    (pass0Relation emptySel 1 2
      [⟨10, MType.node, "x"⟩, ⟨20, MType.way, "y"⟩]).selectedWays 20 = some 0 ∧
    (pass0Relation emptySel 1 2
      [⟨10, MType.node, "x"⟩, ⟨20, MType.way, "y"⟩]).selectedNodes 10 = some 0 := by
  have h := pass0_records_selected_relation_and_dependencies emptySel 1 2
    [⟨10, MType.node, "x"⟩, ⟨20, MType.way, "y"⟩] (by decide)
  exact ⟨h.1 ⟨⟨10, MType.node, "x"⟩, by simp, Or.inl rfl⟩,
    h.2.1 ⟨20, MType.way, "y"⟩ (by simp) rfl,
    h.2.2 ⟨10, MType.node, "x"⟩ (by simp) rfl⟩

end Osm
